import Mathlib

/-!
Shallow embedding of the `binary` package (binary encoding for structured
log records): the encoder (`Encoder`, `EncodeKey`, `EncodeValue`, `WriteTo`,
`GetEncoder`, `PutEncoder`) and the decoder (`Decode`, `decodeString`,
`readHeader`), together with the wire-format constants.

Bytes are modelled as `Nat` values below 256 collected in `List Nat`;
`int64` as `Int` and `uint64` as `Nat`, with two's-complement wraparound made
explicit where the Go code converts.  Go runtime panics (slice bounds,
index out of range, explicit panic calls) are modelled as an explicit
`panicked` outcome, and the unbounded `for` loop of `Decode` is given a
fuel parameter: `outOfFuel` means the loop is still running after that many
iterations.
-/

namespace BinaryLog

/-- Errors returned by the Go code, as structured values: `magicMismatch`
carries the observed and the expected magic so that "names both values" is
expressible. -/
inductive GoErr where
  | eof
  | unexpectedEOF
  | magicMismatch (got want : Nat)
  | msg (s : String)
deriving DecidableEq, Repr

instance {ε α : Type} [DecidableEq ε] [DecidableEq α] : DecidableEq (Except ε α) := fun a b =>
  match a, b with
  | .error x, .error y =>
      if h : x = y then .isTrue (by rw [h]) else .isFalse (by simp [h])
  | .error _, .ok _ => .isFalse (by simp)
  | .ok _, .error _ => .isFalse (by simp)
  | .ok x, .ok y =>
      if h : x = y then .isTrue (by rw [h]) else .isFalse (by simp [h])

/-- Wire-format constant `magic` (0xBAFEDC01). -/
def magic : Nat := 0xBAFEDC01

/-- Wire-format constant `smallIntEnd`. -/
def smallIntEnd : Nat := 200

/-- Opcode `opInt = iota + smallIntEnd`. -/
def opInt : Nat := 200

/-- Opcode `opUint`. -/
def opUint : Nat := 201

/-- Opcode `opFloat`. -/
def opFloat : Nat := 202

/-- Opcode `opTrue`. -/
def opTrue : Nat := 203

/-- Opcode `opFalse`. -/
def opFalse : Nat := 204

/-- Opcode `opString`. -/
def opString : Nat := 205

/-- Opcode `opBytes`. -/
def opBytes : Nat := 206

/-- Opcode `opDuration`. -/
def opDuration : Nat := 207

/-- Opcode `opTime`. -/
def opTime : Nat := 208

/-- Opcode `opList` (groups). -/
def opList : Nat := 209

/-- Go conversion `uint64(i)` for an `int64` value: two's complement. -/
def toUint64 (i : Int) : Nat := (i % (18446744073709551616 : Int)).toNat

/-- Go conversion `byte(i)` for an `int64` value. -/
def byteOfInt (i : Int) : Nat := (i % (256 : Int)).toNat

/-- The zig-zag mapping used by `binary.AppendVarint`:
`ux := uint64(i) << 1; if i < 0 { ux = ^ux }`. -/
def zigzag (i : Int) : Nat :=
  let ux := toUint64 i * 2 % 18446744073709551616
  if i < 0 then 18446744073709551615 - ux else ux

/-- `binary.AppendUvarint`: emit 7-bit groups, least significant first, high
bit set on every group but the last.  A `uint64` has at most ten 7-bit
groups, so recursion bounded by 10 steps is exact on the function's whole
`uint64` domain. -/
def putUvarintAux : Nat → Nat → List Nat
  | _, 0 => []
  | x, fuel + 1 =>
    if x < 128 then [x] else (x % 128 + 128) :: putUvarintAux (x / 128) fuel

/-- `binary.AppendUvarint` on an empty initial buffer (the encoder always
appends, so only the emitted bytes matter). -/
def putUvarint (x : Nat) : List Nat := putUvarintAux x 10

/-- `binary.AppendVarint`: zig-zag then unsigned varint. -/
def appendVarint (i : Int) : List Nat := putUvarint (zigzag i)

/-- `binary.Uvarint` (decode): returns the value and the byte count; the
count is `0` when the buffer is exhausted mid-varint and negative on a
64-bit overflow, exactly as in Go. -/
def uvarintAux : List Nat → Nat → Nat → Nat → Nat × Int
  | [], _, _, _ => (0, 0)
  | b :: rest, i, x, s =>
    if i = 10 then (0, -11)
    else if b < 128 then
      if i = 9 ∧ 1 < b then (0, -10)
      else ((x ||| (b <<< s)) % 18446744073709551616, (i : Int) + 1)
    else uvarintAux rest (i + 1) ((x ||| (b % 128 <<< s)) % 18446744073709551616) (s + 7)

/-- `binary.Uvarint` entry point. -/
def uvarint (buf : List Nat) : Nat × Int := uvarintAux buf 0 0 0

/-- `binary.Varint`: unsigned varint then zig-zag inverse
(`x := int64(ux >> 1); if ux&1 != 0 { x = ^x }`). -/
def varint (buf : List Nat) : Int × Int :=
  let p := uvarint buf
  let x : Int := (p.1 / 2 : Nat)
  (if p.1 % 2 = 1 then -x - 1 else x, p.2)

/-- Little-endian value of a byte list (as read by
`binary.LittleEndian.Uint32` / `Uint64` on a list of that exact length). -/
def leVal : List Nat → Nat
  | [] => 0
  | b :: rest => b + 256 * leVal rest

/-- Little-endian bytes of a value, `k` bytes wide (as written by
`binary.LittleEndian.PutUint32` / `AppendUint64`). -/
def leBytes : Nat → Nat → List Nat
  | 0, _ => []
  | k + 1, n => n % 256 :: leBytes k (n / 256)

/-- Encoder state: the logical content of `e.buf` and the sticky `e.err`.
The inline backing array `abuf` is a capacity optimization with no
observable content of its own. -/
structure EncState where
  buf : List Nat
  err : Option GoErr
deriving DecidableEq, Repr

/-- `Encoder.encodeOp`. -/
def encodeOp (e : EncState) (o : Nat) : EncState :=
  { e with buf := e.buf ++ [o] }

/-- `Encoder.encodeInt`: small non-negative integers are a single raw byte;
everything else is `opInt` followed by a signed varint. -/
def encodeInt (e : EncState) (i : Int) : EncState :=
  if 0 ≤ i ∧ i < (smallIntEnd : Int) then
    { e with buf := e.buf ++ [byteOfInt i] }
  else
    let e1 := encodeOp e opInt
    { e1 with buf := e1.buf ++ appendVarint i }

/-- `Encoder.encodeUint`. -/
def encodeUint (e : EncState) (u : Nat) : EncState :=
  let e1 := encodeOp e opUint
  { e1 with buf := e1.buf ++ putUvarint u }

/-- `Encoder.encodeFloat`: the value's IEEE-754 bit pattern (`math.Float64bits`)
written as 8 little-endian bytes; the float is represented by its bits. -/
def encodeFloat (e : EncState) (bits : Nat) : EncState :=
  let e1 := encodeOp e opFloat
  { e1 with buf := e1.buf ++ leBytes 8 bits }

/-- `Encoder.encodeBool`. -/
def encodeBool (e : EncState) (b : Bool) : EncState :=
  if b then encodeOp e opTrue else encodeOp e opFalse

/-- `Encoder.encodeString`: opcode, length via `encodeInt`, raw bytes. -/
def encodeString (e : EncState) (s : List Nat) : EncState :=
  let e1 := encodeInt (encodeOp e opString) (s.length : Int)
  { e1 with buf := e1.buf ++ s }

/-- `Encoder.encodeBytes`. -/
def encodeBytes (e : EncState) (b : List Nat) : EncState :=
  let e1 := encodeInt (encodeOp e opBytes) (b.length : Int)
  { e1 with buf := e1.buf ++ b }

/-- `Encoder.encodeTime`: `opTime` is appended first, then `t.MarshalBinary()`
(external library code, modelled as the value's oracle result); a marshal
error sets the sticky error and appends no data bytes. -/
def encodeTime (e : EncState) (marshaled : Except GoErr (List Nat)) : EncState :=
  let e1 := encodeOp e opTime
  match marshaled with
  | .error er => { e1 with err := some er }
  | .ok data => { e1 with buf := e1.buf ++ data }

/-- A value reaching `Encoder.encodeAny`: either it implements
`encoding.TextMarshaler` (with the oracle result of `MarshalText`) or it is
stringified with `fmt.Sprint` (the resulting bytes carried directly). -/
inductive AnyVal where
  | textMarshaler (res : Except GoErr (List Nat))
  | plain (s : List Nat)
deriving Repr

/-- `Encoder.encodeAny`. -/
def encodeAny (e : EncState) (x : AnyVal) : EncState :=
  match x with
  | .textMarshaler (.error er) => { e with err := some er }
  | .textMarshaler (.ok data) => encodeBytes e data
  | .plain s => encodeString e s

mutual
/-- A resolved `slog.Value` (after `Resolve`, so `KindLogValuer` cannot
occur): strings and byte views as byte lists, `int64`/durations as `Int`,
`uint64` as `Nat`, floats by their bit pattern, times by their
`MarshalBinary` oracle, `any` by its `encodeAny` shape, groups as attribute
lists. -/
inductive Value where
  | vstr (s : List Nat)
  | vint (i : Int)
  | vuint (u : Nat)
  | vfloat (bits : Nat)
  | vbool (b : Bool)
  | vduration (ns : Int)
  | vtime (marshaled : Except GoErr (List Nat))
  | vany (x : AnyVal)
  | vgroup (attrs : Attrs)

/-- A `[]slog.Attr`: key/value pairs in declaration order. -/
inductive Attrs where
  | nil
  | cons (key : List Nat) (v : Value) (rest : Attrs)
end

/-- Number of attributes (`len(attrs)`). -/
def attrsLen : Attrs → Nat
  | .nil => 0
  | .cons _ _ rest => attrsLen rest + 1

/-- `Encoder.EncodeKey`. -/
def EncodeKey (e : EncState) (key : List Nat) : EncState :=
  encodeString e key

mutual
/-- `Encoder.EncodeValue`, dispatching on the resolved value's kind. -/
def EncodeValue (e : EncState) : Value → EncState
  | .vstr s => encodeString e s
  | .vint i => encodeInt e i
  | .vuint u => encodeUint e u
  | .vfloat bits => encodeFloat e bits
  | .vbool b => encodeBool e b
  | .vduration ns => encodeInt (encodeOp e opDuration) ns
  | .vtime marshaled => encodeTime e marshaled
  | .vany x => encodeAny e x
  | .vgroup attrs =>
      encodeAttrs (encodeInt (encodeOp e opList) ((attrsLen attrs * 2 : Nat) : Int)) attrs

/-- The loop body of the `KindGroup` case: `EncodeKey(a.Key)` then
`EncodeValue(a.Value)` for each attribute in order. -/
def encodeAttrs (e : EncState) : Attrs → EncState
  | .nil => e
  | .cons k v rest => encodeAttrs (EncodeValue (EncodeKey e k) v) rest
end

/-- `Encoder.WriteTo` against an infallible sink: the pair is the byte
sequence actually written and the returned error.  The sticky-error and
size checks both precede any write. -/
def WriteTo (e : EncState) : List Nat × Option GoErr :=
  match e.err with
  | some er => ([], some er)
  | none =>
    if e.buf.length > 4294967295 then ([], some (.msg "buffer too big"))
    else (leBytes 4 magic ++ leBytes 4 (e.buf.length % 4294967296) ++ e.buf, none)

/-- The encoder pool (`sync.Pool`): a free list; `Get` takes the head or
makes a fresh zero-valued encoder. -/
structure Pool where
  free : List EncState
deriving DecidableEq, Repr

/-- `pool.Get()`: a pooled instance in its retained state, or a new one. -/
def poolGet (p : Pool) : EncState × Pool :=
  match p.free with
  | [] => (⟨[], none⟩, ⟨[]⟩)
  | e :: rest => (e, ⟨rest⟩)

/-- `GetEncoder`: take an instance from the pool, clear `err`, reset `buf`
to the empty prefix of the backing array. -/
def GetEncoder (p : Pool) : EncState × Pool :=
  let q := poolGet p
  ({ q.1 with err := none, buf := [] }, q.2)

/-- `PutEncoder`: return the instance to the pool, untouched. -/
def PutEncoder (p : Pool) (e : EncState) : Pool :=
  ⟨e :: p.free⟩

/-- One `DecodeVisitor` callback, recorded with its arguments (floats by
their bit pattern, as produced by `math.Float64frombits`'s argument). -/
inductive Event where
  | int (key : List Nat) (val : Int)
  | uint (key : List Nat) (val : Nat)
  | str (key val : List Nat)
  | bool (key : List Nat) (val : Bool)
  | float (key : List Nat) (bits : Nat)
deriving DecidableEq, Repr

/-- Outcome of `Decode`: a normal return (`ok` or a returned error), a Go
runtime or explicit panic, or `outOfFuel` when the loop is still running
after the given number of iterations. -/
inductive DecResult where
  | ok
  | errRes (e : GoErr)
  | panicked (msg : String)
  | outOfFuel
deriving DecidableEq, Repr

/-- `decodeString`: `l, n := binary.Varint(buf); return buf[n:n+int(l)],
buf[n+int(l):]`.  The slice expression panics unless
`0 <= n <= n+l <= len(buf)`; note the length is read as a zig-zag varint
even though the encoder wrote it with `encodeInt`. -/
def decodeString (buf : List Nat) : Except String (List Nat × List Nat) :=
  let p := varint buf
  if 0 ≤ p.2 ∧ 0 ≤ p.1 ∧ p.2 + p.1 ≤ (buf.length : Int) then
    .ok ((buf.drop p.2.toNat).take p.1.toNat, buf.drop (p.2 + p.1).toNat)
  else .error "slice bounds out of range"

/-- One iteration of the payload loop of `Decode`, computed from the loop
variable `buf` at entry: the callbacks fired during the iteration and, when
the iteration does not complete normally, the early return or panic.  The
iteration never produces an updated loop buffer because the Go code's
`key, buf := decodeString(buf[1:])` declares a new `buf` shadowing the
loop variable, so every `buf = buf[n:]` inside the `switch` updates only
the shadow. -/
def bodyStep (buf : List Nat) : List Event × Option DecResult :=
  match buf with
  | [] => ([], some (.panicked "index out of range"))
  | b0 :: rest =>
    if b0 ≠ opString then ([], some (.errRes (.msg "key is not a string")))
    else
      match decodeString rest with
      | .error m => ([], some (.panicked m))
      | .ok (key, buf1) =>
        match buf1 with
        | [] => ([], some (.panicked "index out of range"))
        | b :: buf2 =>
          if b < smallIntEnd then ([.int key (b : Int)], none)
          else if b = opInt then
            let p := varint buf2
            ([.int key p.1],
              if p.2 < 0 then some (.panicked "slice bounds out of range") else none)
          else if b = opUint then
            let p := uvarint buf2
            ([.uint key p.1],
              if p.2 < 0 then some (.panicked "slice bounds out of range") else none)
          else if b = opFloat then
            if buf2.length < 8 then ([], some (.panicked "index out of range"))
            else ([.float key (leVal (buf2.take 8))], none)
          else if b = opTrue then ([.bool key true], none)
          else if b = opFalse then ([.bool key false], none)
          else if b = opString then
            let p := varint buf2
            if p.2 < 0 then ([], some (.panicked "slice bounds out of range"))
            else
              let buf3 := buf2.drop p.2.toNat
              if 0 ≤ p.1 ∧ p.1 ≤ (buf3.length : Int) then
                ([.str key (buf3.take p.1.toNat)], none)
              else ([], some (.panicked "slice bounds out of range"))
          else ([], some (.panicked "unknown op"))

/-- The `for len(buf) > 0` loop of `Decode`, with fuel.  The recursive call
passes `buf` unchanged: the iteration body only ever assigns to its
shadowing local (see `bodyStep`), so the loop variable never advances. -/
def decodeLoop : Nat → List Nat → List Event → List Event × DecResult
  | 0, _, evs => (evs, .outOfFuel)
  | fuel + 1, buf, evs =>
    if 0 < buf.length then
      match bodyStep buf with
      | (evs1, some r) => (evs ++ evs1, r)
      | (evs1, none) => decodeLoop fuel buf (evs ++ evs1)
    else (evs, .ok)

/-- `io.ReadFull` against a byte-list source: all `n` requested bytes, or
`EOF` when nothing was available, or `ErrUnexpectedEOF` on a partial read. -/
def readFull (src : List Nat) (n : Nat) : Except GoErr (List Nat × List Nat) :=
  if n ≤ src.length then .ok (src.take n, src.drop n)
  else if src.length = 0 then .error .eof
  else .error .unexpectedEOF

/-- `readHeader`: read 8 header bytes, check the magic, then read exactly
`length` payload bytes. -/
def readHeader (src : List Nat) : Except GoErr (List Nat) :=
  match readFull src 8 with
  | .error e => .error e
  | .ok (header, rest) =>
    let m := leVal (header.take 4)
    if m ≠ magic then .error (.magicMismatch m magic)
    else
      match readFull rest (leVal (header.drop 4)) with
      | .error e => .error e
      | .ok (payload, _) => .ok payload

/-- `Decode`: header then payload walk; the event list collects every
visitor callback fired, in order. -/
def Decode (fuel : Nat) (src : List Nat) : List Event × DecResult :=
  match readHeader src with
  | .error e => ([], .errRes e)
  | .ok payload => decodeLoop fuel payload []

/-- The bytes `encodeInt` appends for a given integer (derived layout
description, proved against `encodeInt` below). -/
def intBytes (i : Int) : List Nat :=
  if 0 ≤ i ∧ i < (smallIntEnd : Int) then [byteOfInt i] else opInt :: appendVarint i

/-- The bytes `encodeString` appends for a given string. -/
def stringBytes (s : List Nat) : List Nat :=
  opString :: (intBytes (s.length : Int) ++ s)

/-- The bytes `encodeBytes` appends for a given byte string. -/
def bytesBytes (b : List Nat) : List Nat :=
  opBytes :: (intBytes (b.length : Int) ++ b)

/-- The bytes `EncodeValue` appends for a given value (encoding is
append-only, so they are the buffer grown from an empty encoder). -/
def valueBytes (v : Value) : List Nat :=
  (EncodeValue ⟨[], none⟩ v).buf

/-- The bytes the group loop appends for an attribute list. -/
def attrsBytes (al : Attrs) : List Nat :=
  (encodeAttrs ⟨[], none⟩ al).buf

/-! Helper lemmas: each encoding operation appends a function of its
argument to the buffer, leaving the sticky error unchanged (except the two
marshal-failure paths). -/

theorem encodeInt_eq (e : EncState) (i : Int) :
    encodeInt e i = ⟨e.buf ++ intBytes i, e.err⟩ := by
  unfold encodeInt intBytes encodeOp
  split <;> simp

theorem encodeString_eq (e : EncState) (s : List Nat) :
    encodeString e s = ⟨e.buf ++ stringBytes s, e.err⟩ := by
  unfold encodeString stringBytes
  rw [show encodeOp e opString = ⟨e.buf ++ [opString], e.err⟩ from rfl, encodeInt_eq]
  simp

theorem encodeBytes_eq (e : EncState) (b : List Nat) :
    encodeBytes e b = ⟨e.buf ++ bytesBytes b, e.err⟩ := by
  unfold encodeBytes bytesBytes
  rw [show encodeOp e opBytes = ⟨e.buf ++ [opBytes], e.err⟩ from rfl, encodeInt_eq]
  simp

theorem encodeUint_eq (e : EncState) (u : Nat) :
    encodeUint e u = ⟨e.buf ++ opUint :: putUvarint u, e.err⟩ := by
  unfold encodeUint encodeOp
  simp

theorem encodeFloat_eq (e : EncState) (bits : Nat) :
    encodeFloat e bits = ⟨e.buf ++ opFloat :: leBytes 8 bits, e.err⟩ := by
  unfold encodeFloat encodeOp
  simp

theorem encodeBool_eq (e : EncState) (b : Bool) :
    encodeBool e b = ⟨e.buf ++ [if b then opTrue else opFalse], e.err⟩ := by
  unfold encodeBool encodeOp
  cases b <;> simp

theorem encodeTime_eq (e : EncState) (m : Except GoErr (List Nat)) :
    encodeTime e m =
      match m with
      | .ok data => ⟨e.buf ++ opTime :: data, e.err⟩
      | .error er => ⟨e.buf ++ [opTime], some er⟩ := by
  unfold encodeTime encodeOp
  cases m <;> simp

theorem encodeAny_eq (e : EncState) (x : AnyVal) :
    encodeAny e x =
      match x with
      | .textMarshaler (.ok data) => ⟨e.buf ++ bytesBytes data, e.err⟩
      | .textMarshaler (.error er) => ⟨e.buf, some er⟩
      | .plain s => ⟨e.buf ++ stringBytes s, e.err⟩ := by
  rcases x with res | s
  · cases res <;> simp [encodeAny, encodeBytes_eq]
  · simp [encodeAny, encodeString_eq]

mutual
/-- Append-homomorphism: `EncodeValue` grows the buffer by `valueBytes`. -/
theorem EncodeValue_buf (v : Value) :
    ∀ e : EncState, (EncodeValue e v).buf = e.buf ++ valueBytes v := by
  intro e
  cases v with
  | vstr s => simp [EncodeValue, valueBytes, encodeString_eq]
  | vint i => simp [EncodeValue, valueBytes, encodeInt_eq]
  | vuint u => simp [EncodeValue, valueBytes, encodeUint_eq]
  | vfloat bits => simp [EncodeValue, valueBytes, encodeFloat_eq]
  | vbool b => cases b <;> simp [EncodeValue, valueBytes, encodeBool_eq]
  | vduration ns =>
      simp [EncodeValue, valueBytes, encodeInt_eq, encodeOp]
  | vtime m => cases m <;> simp [EncodeValue, valueBytes, encodeTime_eq]
  | vany x =>
      rcases x with res | s
      · cases res <;> simp [EncodeValue, valueBytes, encodeAny_eq]
      · simp [EncodeValue, valueBytes, encodeAny_eq]
  | vgroup attrs =>
      have h := encodeAttrs_buf attrs
      simp [EncodeValue, valueBytes, h, encodeInt_eq, encodeOp]

/-- Append-homomorphism for the group loop. -/
theorem encodeAttrs_buf (al : Attrs) :
    ∀ e : EncState, (encodeAttrs e al).buf = e.buf ++ attrsBytes al := by
  intro e
  cases al with
  | nil => simp [encodeAttrs, attrsBytes]
  | cons k v rest =>
      have hv := EncodeValue_buf v
      have hr := encodeAttrs_buf rest
      have step : ∀ e0 : EncState,
          (encodeAttrs e0 (.cons k v rest)).buf
            = e0.buf ++ (stringBytes k ++ (valueBytes v ++ attrsBytes rest)) := by
        intro e0
        show (encodeAttrs (EncodeValue (EncodeKey e0 k) v) rest).buf = _
        rw [hr, hv, show EncodeKey e0 k = encodeString e0 k from rfl, encodeString_eq]
        simp
      rw [step e,
        show attrsBytes (.cons k v rest)
            = (encodeAttrs ⟨[], none⟩ (.cons k v rest)).buf from rfl,
        step ⟨[], none⟩]
      simp
end

theorem leVal_leBytes (k : Nat) :
    ∀ n : Nat, n < 256 ^ k → leVal (leBytes k n) = n := by
  induction k with
  | zero =>
      intro n h
      have hn : n = 0 := by omega
      subst hn
      simp [leBytes, leVal]
  | succ k ih =>
      intro n h
      have hdiv : n / 256 < 256 ^ k := by
        rw [Nat.div_lt_iff_lt_mul (by norm_num)]
        calc n < 256 ^ (k + 1) := h
        _ = 256 ^ k * 256 := by ring
      simp [leBytes, leVal, ih (n / 256) hdiv]
      omega

/-- Running the decode loop with an event accumulator only prepends the
accumulator to the events of a run started empty. -/
theorem decodeLoop_append (fuel : Nat) :
    ∀ (buf : List Nat) (evs : List Event),
      decodeLoop fuel buf evs
        = (evs ++ (decodeLoop fuel buf []).1, (decodeLoop fuel buf []).2) := by
  induction fuel with
  | zero => intro buf evs; simp [decodeLoop]
  | succ n ih =>
      intro buf evs
      by_cases h : 0 < buf.length
      · rcases hb : bodyStep buf with ⟨evs1, o⟩
        cases o with
        | some r => simp [decodeLoop, h, hb]
        | none =>
            simp only [decodeLoop, if_pos h, hb]
            rw [ih buf (evs ++ evs1), ih buf ([] ++ evs1)]
            simp
      · simp [decodeLoop, h]

/-- C1: the round-trip property fails on the code.  Encoding key `"a"` with
value `int 0` frames the expected payload `[opString, 1, 97, 0]`, but
decoding that frame panics with a slice-bounds violation (the key length,
written as a raw small-int byte, is read back as a zig-zag varint and comes
out as `-1`) and fires no callback; encoding key `""` with an empty group
frames `[opString, 0, opList, 0]`, and decoding panics on the group opcode,
which the decoder does not implement.  The claimed single callback with the
original key and value never happens. -/
theorem roundtrip_decode_breaks :
    (WriteTo (EncodeValue (EncodeKey ⟨[], none⟩ [97]) (.vint 0))).1
      = [1, 220, 254, 186, 4, 0, 0, 0, 205, 1, 97, 0]
    ∧ (∀ fuel, Decode (fuel + 1) ((WriteTo (EncodeValue (EncodeKey ⟨[], none⟩ [97]) (.vint 0))).1)
        = ([], .panicked "slice bounds out of range"))
    ∧ (WriteTo (EncodeValue (EncodeKey ⟨[], none⟩ []) (.vgroup .nil))).1
      = [1, 220, 254, 186, 4, 0, 0, 0, 205, 0, 209, 0]
    ∧ (∀ fuel, Decode (fuel + 1) ((WriteTo (EncodeValue (EncodeKey ⟨[], none⟩ []) (.vgroup .nil))).1)
        = ([], .panicked "unknown op")) := by
  have hw1 : (WriteTo (EncodeValue (EncodeKey ⟨[], none⟩ [97]) (.vint 0))).1
      = [1, 220, 254, 186, 4, 0, 0, 0, 205, 1, 97, 0] := by decide
  have hw2 : (WriteTo (EncodeValue (EncodeKey ⟨[], none⟩ []) (.vgroup .nil))).1
      = [1, 220, 254, 186, 4, 0, 0, 0, 205, 0, 209, 0] := by decide
  have hh1 : readHeader [1, 220, 254, 186, 4, 0, 0, 0, 205, 1, 97, 0] = .ok [205, 1, 97, 0] := by
    decide
  have hh2 : readHeader [1, 220, 254, 186, 4, 0, 0, 0, 205, 0, 209, 0] = .ok [205, 0, 209, 0] := by
    decide
  have hb1 : bodyStep [205, 1, 97, 0] = ([], some (.panicked "slice bounds out of range")) := by
    decide
  have hb2 : bodyStep [205, 0, 209, 0] = ([], some (.panicked "unknown op")) := by decide
  refine ⟨hw1, fun fuel => ?_, hw2, fun fuel => ?_⟩
  · rw [hw1]
    simp [Decode, hh1, decodeLoop, hb1]
  · rw [hw2]
    simp [Decode, hh2, decodeLoop, hb2]

/-- C2: the header's length field is exactly the payload length (that half
of the claim holds of `WriteTo`), but the payload walk in `Decode` does not
terminate: on the frame for the single entry key `""`, value `5`, the loop
re-decodes the same entry forever — after any number of iterations it has
fired that many identical callbacks and is still running, because the loop
variable is never advanced (its update is absorbed by a shadowing local). -/
theorem framing_claim_status :
    (∀ b : List Nat, b.length ≤ 4294967295 →
        (WriteTo ⟨b, none⟩).1 = leBytes 4 magic ++ leBytes 4 b.length ++ b
          ∧ leVal (leBytes 4 b.length) = b.length)
    ∧ ∀ fuel, Decode fuel [1, 220, 254, 186, 3, 0, 0, 0, 205, 0, 5]
        = (List.replicate fuel (Event.int [] 5), DecResult.outOfFuel) := by
  constructor
  · intro b hb
    constructor
    · simp only [WriteTo]
      rw [if_neg (by omega)]
      rw [Nat.mod_eq_of_lt (by omega)]
    · exact leVal_leBytes 4 b.length (by omega)
  · intro fuel
    have hh : readHeader [1, 220, 254, 186, 3, 0, 0, 0, 205, 0, 5] = .ok [205, 0, 5] := by decide
    have hb : bodyStep [205, 0, 5] = ([Event.int [] 5], none) := by decide
    induction fuel with
    | zero => decide
    | succ n ih =>
        simp only [Decode, hh] at ih ⊢
        rw [show decodeLoop (n + 1) [205, 0, 5] [] = decodeLoop n [205, 0, 5] [Event.int [] 5]
          from by simp [decodeLoop, hb]]
        rw [decodeLoop_append n, ih]
        simp [List.replicate_succ]

/-- C3: `Decode` does not return a recoverable error on an unrecognized
opcode byte: on a well-framed payload whose value opcode is `opBytes`
(which the decoder does not implement) it panics instead of returning. -/
theorem decode_panics_on_unknown_opcode (fuel : Nat) :
    Decode (fuel + 1) [1, 220, 254, 186, 3, 0, 0, 0, 205, 0, 206]
      = ([], .panicked "unknown op") := by
  have hh : readHeader [1, 220, 254, 186, 3, 0, 0, 0, 205, 0, 206] = .ok [205, 0, 206] := by
    decide
  have hb : bodyStep [205, 0, 206] = ([], some (.panicked "unknown op")) := by decide
  simp [Decode, hh, decodeLoop, hb]

/-- C4: small-int optimization of `encodeInt`.  For an `int64` value `i`
with `0 <= i < 200` exactly one byte, the value itself, is appended (no
opcode, no varint); for `i < 0` or `i >= 200` the `opInt` opcode byte is
appended followed by the signed varint of `i`. -/
theorem encodeInt_small_int_rule (e : EncState) (i : Int)
    (hlo : -9223372036854775808 ≤ i) (hhi : i < 9223372036854775808) :
    (0 ≤ i ∧ i < 200 →
        (encodeInt e i).buf = e.buf ++ [i.toNat]
          ∧ (encodeInt e i).buf.length = e.buf.length + 1)
    ∧ (i < 0 ∨ 200 ≤ i →
        (encodeInt e i).buf = e.buf ++ opInt :: appendVarint i) := by
  constructor
  · rintro ⟨h0, h1⟩
    have hbyte : byteOfInt i = i.toNat := by
      unfold byteOfInt
      congr 1
      omega
    rw [encodeInt_eq]
    unfold intBytes
    rw [if_pos ⟨h0, by simp only [smallIntEnd]; omega⟩]
    simp [hbyte]
  · intro h
    rw [encodeInt_eq]
    unfold intBytes
    rw [if_neg (by simp only [smallIntEnd]; omega)]

/-- Witness for C4 at `i = 5` on an empty encoder. -/
theorem encodeInt_small_int_rule_witness :
    (encodeInt ⟨[], none⟩ 5).buf = (⟨[], none⟩ : EncState).buf ++ [(5 : Int).toNat]
      ∧ (encodeInt ⟨[], none⟩ 5).buf.length = (⟨[], none⟩ : EncState).buf.length + 1 :=
  (encodeInt_small_int_rule ⟨[], none⟩ 5 (by norm_num) (by norm_num)).1 (by norm_num)

/-- C5: the concrete scenario.  Encoding key `"n"` with value `5` produces
exactly the payload `[opString, 1, 110, 5]` (that half of the claim holds),
but decoding the resulting frame does not invoke `Int("n", 5)`: it panics
with no callback fired at all, because the key-length byte `1` is read back
as the zig-zag varint `-1`. -/
theorem concrete_scenario_status :
    (EncodeValue (EncodeKey ⟨[], none⟩ [110]) (.vint 5)).buf = [opString, 1, 110, 5]
    ∧ ∀ fuel,
        Decode (fuel + 1) ((WriteTo (EncodeValue (EncodeKey ⟨[], none⟩ [110]) (.vint 5))).1)
          = ([], .panicked "slice bounds out of range") := by
  have hw : (WriteTo (EncodeValue (EncodeKey ⟨[], none⟩ [110]) (.vint 5))).1
      = [1, 220, 254, 186, 4, 0, 0, 0, 205, 1, 110, 5] := by decide
  have hh : readHeader [1, 220, 254, 186, 4, 0, 0, 0, 205, 1, 110, 5] = .ok [205, 1, 110, 5] := by
    decide
  have hb : bodyStep [205, 1, 110, 5] = ([], some (.panicked "slice bounds out of range")) := by
    decide
  refine ⟨by decide, fun fuel => ?_⟩
  rw [hw]
  simp [Decode, hh, decodeLoop, hb]

/-- C6: when the sticky error flag is set, or the buffer exceeds the 32-bit
limit, `WriteTo` returns an error having written nothing to the sink. -/
theorem WriteTo_error_writes_nothing (e : EncState)
    (h : e.err ≠ none ∨ 4294967295 < e.buf.length) :
    (WriteTo e).1 = [] ∧ (WriteTo e).2 ≠ none := by
  rcases he : e.err with _ | er
  · have hlen : 4294967295 < e.buf.length := by
      rcases h with h | h
      · exact absurd he h
      · exact h
    simp [WriteTo, he, hlen]
  · simp [WriteTo, he]

/-- Witness for C6: a sticky marshaling error makes `WriteTo` write nothing. -/
theorem WriteTo_error_writes_nothing_witness :
    (WriteTo ⟨[], some (.msg "boom")⟩).1 = []
      ∧ (WriteTo ⟨[], some (.msg "boom")⟩).2 ≠ none :=
  WriteTo_error_writes_nothing ⟨[], some (.msg "boom")⟩ (Or.inl (by simp))

/-- C7 counterexample: the input `[0,0,0,0]` has four header bytes that do
not spell the magic, yet `Decode` fails with `ErrUnexpectedEOF` (the 8-byte
header read comes up short first), not with a format error carrying the
expected and observed magic. -/
theorem magic_claim_counterexample :
    leVal (List.take 4 [0, 0, 0, 0]) ≠ magic
    ∧ Decode 1 [0, 0, 0, 0] = ([], .errRes .unexpectedEOF)
    ∧ ¬ ∃ got : Nat, (Decode 1 [0, 0, 0, 0]).2 = .errRes (.magicMismatch got magic) := by
  refine ⟨by decide, by decide, ?_⟩
  rintro ⟨got, hg⟩
  rw [show (Decode 1 [0, 0, 0, 0]).2 = .errRes .unexpectedEOF from by decide] at hg
  exact absurd hg (by simp)

/-- C7 amended: for every input providing the full 8-byte header whose
first four bytes do not equal the magic (little-endian), `Decode` fails
with a format error carrying both the observed and the expected magic, and
no visitor callback is invoked. -/
theorem magic_mismatch_error_full_header (fuel : Nat) (src : List Nat)
    (h8 : 8 ≤ src.length) (hm : leVal (src.take 4) ≠ magic) :
    Decode fuel src = ([], .errRes (.magicMismatch (leVal (src.take 4)) magic)) := by
  have h1 : readFull src 8 = .ok (src.take 8, src.drop 8) := by
    unfold readFull
    rw [if_pos h8]
  have ht : (src.take 8).take 4 = src.take 4 := by
    rw [List.take_take]
    norm_num
  have h2 : readHeader src = .error (.magicMismatch (leVal (src.take 4)) magic) := by
    unfold readHeader
    rw [h1]
    dsimp only
    rw [ht, if_pos hm]
  simp [Decode, h2]

/-- Witness for the amended C7 on the all-zero 8-byte input. -/
theorem magic_mismatch_error_full_header_witness :
    Decode 0 [0, 0, 0, 0, 0, 0, 0, 0]
      = ([], .errRes (.magicMismatch (leVal (List.take 4 [0, 0, 0, 0, 0, 0, 0, 0])) magic)) :=
  magic_mismatch_error_full_header 0 [0, 0, 0, 0, 0, 0, 0, 0] (by decide) (by decide)

/-- C8 counterexample: a fallback value with text-marshaling capability is
appended `opBytes`-tagged, not `opString`-tagged as the claim says: for the
marshaled text `[97]` the appended bytes are `[opBytes, 1, 97]`, whose
first byte differs from `opString`. -/
theorem encodeAny_textmarshaler_uses_opBytes :
    (EncodeValue ⟨[], none⟩ (.vany (.textMarshaler (.ok [97])))).buf = [opBytes, 1, 97]
    ∧ (EncodeValue ⟨[], none⟩ (.vany (.textMarshaler (.ok [97])))).buf.head? = some opBytes
    ∧ opBytes ≠ opString := by
  decide

/-- C8 amended: a fallback (`any`) value with text-marshaling capability is
appended as a byte-string value (`opBytes`-tagged) holding the marshaled
text, a failed marshal sets the sticky error and appends nothing, and any
other fallback value is appended as a string value (`opString`-tagged)
holding its generic stringification. -/
theorem encodeAny_amended (e : EncState) (x : AnyVal) :
    EncodeValue e (.vany x)
      = match x with
        | .textMarshaler (.ok data) => ⟨e.buf ++ bytesBytes data, e.err⟩
        | .textMarshaler (.error er) => ⟨e.buf, some er⟩
        | .plain s => ⟨e.buf ++ stringBytes s, e.err⟩ :=
  encodeAny_eq e x

/-- C9: a group value is encoded as the group opcode, then the flattened
child item count `2*k` through the standard integer rule, then each child's
key and value inline in declaration order (values recursively by the same
encoding), with nothing after the last child. -/
theorem EncodeValue_group_layout (e : EncState) (attrs : Attrs) :
    (EncodeValue e (.vgroup attrs)).buf
      = e.buf ++ opList :: (intBytes ((attrsLen attrs * 2 : Nat) : Int) ++ attrsBytes attrs)
    ∧ attrsBytes .nil = []
    ∧ ∀ (k : List Nat) (v : Value) (rest : Attrs),
        attrsBytes (.cons k v rest) = stringBytes k ++ (valueBytes v ++ attrsBytes rest) := by
  refine ⟨?_, by simp [attrsBytes, encodeAttrs], fun k v rest => ?_⟩
  · show (encodeAttrs (encodeInt (encodeOp e opList) _) attrs).buf = _
    rw [encodeAttrs_buf, encodeInt_eq]
    simp [encodeOp]
  · show (encodeAttrs (EncodeValue (EncodeKey ⟨[], none⟩ k) v) rest).buf = _
    rw [encodeAttrs_buf, EncodeValue_buf,
      show EncodeKey ⟨[], none⟩ k = encodeString ⟨[], none⟩ k from rfl, encodeString_eq]
    simp

/-- C10: `GetEncoder` always hands out a fresh lifecycle — empty buffer and
clear sticky error — even when the instance comes back from the pool dirty,
and `PutEncoder` stores the instance in the pool exactly as given, so the
reset happens only in `GetEncoder`. -/
theorem GetEncoder_fresh_PutEncoder_no_reset (p : Pool) (e : EncState) :
    (GetEncoder p).1 = ⟨[], none⟩
    ∧ PutEncoder p e = ⟨e :: p.free⟩
    ∧ (GetEncoder (PutEncoder p e)).1 = ⟨[], none⟩ := by
  refine ⟨?_, rfl, ?_⟩ <;> rfl

end BinaryLog
